import Mathlib

/-!
Verification of the bt-rename rename-plan lifecycle.

This file gives a shallow embedding of the core of the repository
(src/bt_rename/rename.py and src/bt_rename/rename_plan.py) and proves
properties of it.  Strings are modelled as Lean `String` (a structure
holding a `List Char`), matching Python's sequence-of-code-points view;
the helpers below model the Python standard-library operations the code
uses (`str.lower`, `str.rfind`, `str.split`, `os.path.splitext`,
`os.path.dirname`, `os.path.commonpath`, `re.sub` for the fixed patterns
appearing in the source, `str.strip`).
-/

namespace BtRename

/-- Models `str.lower` for the ASCII strings handled here (extensions,
tags); Python lowercases the full Unicode string but every comparison in
the source involves ASCII extension sets. -/
def lowerL (l : List Char) : List Char := l.map Char.toLower

/-- Models Python `str.rfind(c)`: index of the last occurrence of `c`,
`-1` when absent. -/
def rfind (c : Char) : List Char → Int
  | [] => -1
  | x :: xs =>
    let r := rfind c xs
    if r ≥ 0 then r + 1
    else if x = c then 0 else -1

/-- Models Python `str.split(sep)` for a one-character separator: splits
at every occurrence, keeping empty pieces (so `"/a/b".split("/")`
is `["", "a", "b"]`). -/
def splitChar (c : Char) : List Char → List (List Char)
  | [] => [[]]
  | x :: xs =>
    match splitChar c xs with
    | [] => [[]]
    | r :: rs => if x = c then [] :: r :: rs else (x :: r) :: rs

/-- Models CPython `genericpath._splitext` (used by `os.path.splitext`)
for POSIX separators: the extension starts at the last `.` that comes
after the last `/`, provided some character of the file name before that
dot is not itself a dot (so `".bashrc"` has no extension). -/
def splitextList (p : List Char) : List Char × List Char :=
  let sepIndex := rfind '/' p
  let dotIndex := rfind '.' p
  if sepIndex < dotIndex then
    let base := (p.take dotIndex.toNat).drop (sepIndex + 1).toNat
    if base.any (fun ch => ch ≠ '.') then
      (p.take dotIndex.toNat, p.drop dotIndex.toNat)
    else (p, [])
  else (p, [])

/-- Models CPython `posixpath.dirname`: everything up to the last `/`,
with trailing separators stripped unless the head consists only of
separators. -/
def dirname (p : String) : String :=
  let i : Int := rfind '/' p.data + 1
  let head := p.data.take i.toNat
  if head ≠ [] ∧ ¬ (head.all (fun ch => ch = '/')) then
    ⟨(head.reverse.dropWhile (fun ch => ch = '/')).reverse⟩
  else ⟨head⟩

/-- Python string comparison: lexicographic on code points.  Equal code
points mean equal characters, so comparing `Char.toNat` is exact. -/
def leChars : List Char → List Char → Bool
  | [], _ => true
  | _ :: _, [] => false
  | a :: as, b :: bs =>
    if a.toNat = b.toNat then leChars as bs
    else decide (a.toNat < b.toNat)

/-- Code-point order on `String`, as used by Python `list.sort()` on
path strings. -/
def strLe (x y : String) : Prop := leChars x.data y.data = true

theorem leChars_total : ∀ a b : List Char, leChars a b = true ∨ leChars b a = true := by
  intro a
  induction a with
  | nil => intro b; left; rfl
  | cons x xs ih =>
    intro b
    cases b with
    | nil => right; rfl
    | cons y ys =>
      by_cases hxy : x.toNat = y.toNat
      · rcases ih ys with h | h
        · left; simp [leChars, hxy, h]
        · right; simp [leChars, hxy.symm, h]
      · rcases Nat.lt_or_ge x.toNat y.toNat with hlt | hge
        · left; simp [leChars, hxy, hlt]
        · right
          have hyx : ¬ y.toNat = x.toNat := fun h => hxy h.symm
          have hlt : y.toNat < x.toNat := lt_of_le_of_ne hge hyx
          simp [leChars, hyx, hlt]

theorem leChars_trans : ∀ a b c : List Char,
    leChars a b = true → leChars b c = true → leChars a c = true := by
  intro a
  induction a with
  | nil => intro b c _ _; rfl
  | cons x xs ih =>
    intro b c hab hbc
    cases b with
    | nil => simp [leChars] at hab
    | cons y ys =>
      cases c with
      | nil => simp [leChars] at hbc
      | cons z zs =>
        by_cases hxy : x.toNat = y.toNat
        · by_cases hyz : y.toNat = z.toNat
          · have hxz : x.toNat = z.toNat := hxy.trans hyz
            simp only [leChars, if_pos hxy] at hab
            simp only [leChars, if_pos hyz] at hbc
            simp [leChars, hxz, ih ys zs hab hbc]
          · simp only [leChars, if_neg hyz, decide_eq_true_eq] at hbc
            have hxz : x.toNat < z.toNat := hxy ▸ hbc
            simp [leChars, Nat.ne_of_lt hxz, hxz]
        · simp only [leChars, if_neg hxy, decide_eq_true_eq] at hab
          by_cases hyz : y.toNat = z.toNat
          · have hxz : x.toNat < z.toNat := hyz ▸ hab
            simp [leChars, Nat.ne_of_lt hxz, hxz]
          · simp only [leChars, if_neg hyz, decide_eq_true_eq] at hbc
            have hxz : x.toNat < z.toNat := lt_trans hab hbc
            simp [leChars, Nat.ne_of_lt hxz, hxz]

/-! ## Discovery (rename.py `fetch_paths_recursively`, lines 252-278)

The filesystem is modelled as a finite tree of named entries; a
directory listing is a `List Fs`.  `os.scandir` yields these entries and
the code turns each into `os.path.abspath(entry.path)`, i.e. the
directory's (absolute, normalized) path joined with the entry name. -/

/-- A filesystem node: a plain file or a directory with its immediate
entries. -/
inductive Fs where
  | file (name : String)
  | dir (name : String) (entries : List Fs)

/-- The entry's own name. -/
def Fs.name : Fs → String
  | .file n => n
  | .dir n _ => n

/-- Models the hidden-entry test in `fetch_paths_recursively`:
`entry.name.startswith('.') and entry.name not in ['.', '..']`. -/
def isHiddenEntry (name : String) : Bool :=
  (match name.data with
   | '.' :: _ => true
   | _ => false)
  && !(name = "." || name = "..")

/-- Video extension set of `has_video_files` (rename.py lines 191-199). -/
def video_extensions : List String := [".mp4", ".mkv", ".avi", ".mov", ".wmv"]

/-- The test `has_video_files` applies to one path:
`os.path.splitext(path.lower())[1] in video_extensions`. -/
def path_is_video (p : String) : Bool :=
  video_extensions.any (fun e => e.data = (splitextList (lowerL p.data)).2)

/-- Models `has_video_files` (rename.py lines 191-199). -/
def has_video_files (paths : List String) : Bool :=
  paths.any path_is_video

/-- Non-hidden entries of a listing paired with their absolute paths,
in scandir order — the list the code builds before sorting. -/
def visiblePairs (dirPath : String) (entries : List Fs) : List (String × Fs) :=
  (entries.filter (fun e => isHiddenEntry e.name = false)).map
    (fun e => (dirPath ++ "/" ++ e.name, e))

/-- Comparison used to model `entries.sort()`: Python sorts the
absolute-path strings ascending; the tree node rides along so the code
can later ask `os.path.isdir`. -/
def pairLe (a b : String × Fs) : Prop := strLe a.1 b.1

instance : DecidableRel pairLe := fun _ _ =>
  inferInstanceAs (Decidable (_ = true))

instance : IsTotal (String × Fs) pairLe :=
  ⟨fun a b => leChars_total a.1.data b.1.data⟩

instance : IsTrans (String × Fs) pairLe :=
  ⟨fun a b c => leChars_trans a.1.data b.1.data c.1.data⟩

/-- Models `entries.sort()`: Python's sort is stable and ascending, as
is insertion sort with a total preorder. -/
def sortPairs (l : List (String × Fs)) : List (String × Fs) :=
  List.insertionSort pairLe l

/-- The sorted absolute-path listing a terminal call returns. -/
def sorted_listing (dirPath : String) (entries : List Fs) : List String :=
  (sortPairs (visiblePairs dirPath entries)).map Prod.fst

/-- Models `fetch_paths_recursively` (rename.py lines 252-278).  The
depth argument comes first so the recursion is structural on it; Python
treats every `max_depth <= 1` (including non-positive ints) as the
exhaustion case, matching the `0`/`1` branches here.  A `PermissionError`
(which makes the Python function return `[]`) is outside the model: the
tree contains exactly the readable listings. -/
def fetch_paths_recursively : Nat → String → List Fs → List String
  | maxDepth, dirPath, entries =>
    let sorted := sortPairs (visiblePairs dirPath entries)
    let paths := sorted.map Prod.fst
    if has_video_files paths then paths
    else
      match maxDepth with
      | 0 => paths
      | 1 => paths
      | Nat.succ (Nat.succ n) =>
        (sorted.map (fun pe =>
          match pe.2 with
          | Fs.file _ => []
          | Fs.dir _ sub => fetch_paths_recursively (Nat.succ n) pe.1 sub)).flatten

/-! ## Naming heuristics: `extract_anime_name` (rename.py lines 65-75)

`re.sub(r'\[.*?\]', '', s)` removes, scanning left to right, every group
from a `[` to the nearest following `]` with no newline in between (`.`
does not match a newline); an unmatched `[` is kept and scanning resumes
at the next character.  Same for `(...)`. -/

/-- Looks for the nearest closing character; `none` when a newline (which
`.` cannot match) or the end of the string comes first.  On success
returns the remainder after the closing character. -/
def findClose (closeC : Char) : List Char → Option (List Char)
  | [] => none
  | y :: ys => if y = closeC then some ys else if y = '\n' then none else findClose closeC ys

/-- One left-to-right pass removing `openC ... closeC` groups, fuelled so
the recursion is structural; the fuel is seeded with the list length,
which bounds the number of steps. -/
def stripTagFuel (openC closeC : Char) : Nat → List Char → List Char
  | 0, l => l
  | _ + 1, [] => []
  | fuel + 1, x :: xs =>
    if x = openC then
      match findClose closeC xs with
      | some rest => stripTagFuel openC closeC fuel rest
      | none => x :: stripTagFuel openC closeC fuel xs
    else x :: stripTagFuel openC closeC fuel xs

/-- Models `re.sub(r'\[.*?\]', '', s)` (and the parenthesis variant). -/
def stripTag (openC closeC : Char) (l : List Char) : List Char :=
  stripTagFuel openC closeC l.length l

/-- Python `\s` for the ASCII range: space, tab, newline, carriage
return, vertical tab, form feed (also what `str.strip` removes for the
strings handled here). -/
def isSpaceChar (c : Char) : Bool :=
  c = ' ' || c = '\t' || c = '\n' || c = '\r' || c = '\x0b' || c = '\x0c'

/-- Models `str.strip()`. -/
def stripEnds (l : List Char) : List Char :=
  ((l.dropWhile isSpaceChar).reverse.dropWhile isSpaceChar).reverse

/-- Models `re.sub(r'\s+', ' ', s)`: each maximal whitespace run becomes
a single space.  The flag records whether the previous character was part
of a run already replaced. -/
def collapseAux : Bool → List Char → List Char
  | _, [] => []
  | prevWs, x :: xs =>
    if isSpaceChar x then
      if prevWs then collapseAux true xs else ' ' :: collapseAux true xs
    else x :: collapseAux false xs

/-- Models `extract_anime_name` (rename.py lines 65-75): drop `[...]`
groups then strip, drop `(...)` groups then strip, collapse whitespace
runs then strip. -/
def extract_anime_name (dir_name : String) : String :=
  let name := stripEnds (stripTag '[' ']' dir_name.data)
  let name := stripEnds (stripTag '(' ')' name)
  let name := stripEnds (collapseAux false name)
  ⟨name⟩

/-! ## `common_top_directory` (rename.py lines 202-213) -/

/-- Whether the path string is absolute (`p[:1] == '/'`). -/
def isAbs (p : String) : Bool :=
  match p.data with
  | '/' :: _ => true
  | _ => false

/-- Longest common leading segment sequence of two component lists. -/
def commonLead : List (List Char) → List (List Char) → List (List Char)
  | x :: xs, y :: ys => if x = y then x :: commonLead xs ys else []
  | _, _ => []

/-- Models CPython `posixpath.commonpath` for inputs that are uniformly
absolute or uniformly relative (mixed inputs raise `ValueError` in
Python and do not occur in this development).  CPython splits each path
on `/`, drops empty and `.` components, and takes the componentwise
common leading run (it computes it from the `min` and `max` component
lists, which yields the same run as folding pairwise over all of
them). -/
def commonpath (paths : List String) : String :=
  let isabs := paths.all isAbs
  let split_paths := paths.map
    (fun p => (splitChar '/' p.data).filter (fun comp => comp ≠ [] ∧ comp ≠ ['.']))
  let common :=
    match split_paths with
    | [] => []
    | s :: rest => rest.foldl commonLead s
  ⟨(if isabs then ['/'] else []) ++ (List.intercalate ['/'] common)⟩

/-- Models `common_top_directory` (rename.py lines 202-213): common path
of the parent directories; when that common path splits on `/` into more
than one piece, only the first piece (which is empty for an absolute
common path) is returned. -/
def common_top_directory (paths : List String) : String :=
  if paths = [] then ""
  else
    let dirs := paths.map dirname
    let common_path := commonpath dirs
    let path_parts := splitChar '/' common_path.data
    if path_parts.length > 1 then ⟨path_parts.headD []⟩ else common_path

/-! ## Plan normalization

Both sources define a `normalize_rename_response`.  The embedding starts
at the point where `json.loads` has succeeded: `ResponseJson` is the
parsed object, holding the `result` field when present (the claims under
verification quantify over the parsed `result` list; the earlier
empty-response / fence-stripping / parse-error stages always lead to the
same `None` outcome and are not claimed).  A Python dict built by a
comprehension keeps the first occurrence's position for a duplicated key
and overwrites its value; `dictInsert`/`dictOfList` model that. -/

/-- The parsed generation response: the `result` field, when present. -/
structure ResponseJson where
  result : Option (List String)

/-- One Python dict insertion: a duplicate key keeps its position and
takes the new value, a fresh key is appended. -/
def dictInsert (m : List (String × String)) (k v : String) : List (String × String) :=
  if (m.map Prod.fst).contains k then
    m.map (fun p => if p.1 = k then (k, v) else p)
  else m ++ [(k, v)]

/-- Models `{original: new for original, new in zip(paths, result)}`:
insert the zipped pairs left to right into an empty dict. -/
def dictOfList (l : List (String × String)) : List (String × String) :=
  l.foldl (fun m p => dictInsert m p.1 p.2) []

namespace Rename

/-- Models `normalize_rename_response` of rename.py (lines 102-129) from
the parsed JSON on: missing `result` field or a length mismatch with
`paths` yields `None`; otherwise the zipped dict.  This variant applies
no rewriting to the proposed names. -/
def normalize_rename_response (paths : List String) (rj : ResponseJson) :
    Option (List (String × String)) :=
  match rj.result with
  | none => none
  | some result =>
    if result.length ≠ paths.length then none
    else some (dictOfList (List.zip paths result))

end Rename

namespace RenamePlan

/-- The match condition of `re.sub(r'\.TAG\.(ass|srt)$', ..., name,
flags=re.IGNORECASE)` for a lowercase literal `tag`: the string ends
with `.` tag `.` ext where ext is a 3-character extension whose
lowercasing is `ass` or `srt`.  The pattern is anchored and of fixed
length, so it matches exactly this suffix shape. -/
def tagMatches (tag : List Char) (s : List Char) : Bool :=
  let n := tag.length + 5
  let ext := s.drop (s.length - 3)
  decide (n ≤ s.length)
  && (lowerL (s.drop (s.length - n)) = ('.' :: tag) ++ ('.' :: lowerL ext) : Bool)
  && ((lowerL ext = "ass".data : Bool) || (lowerL ext = "srt".data : Bool))

/-- Models one `re.sub(r'\.TAG\.(ass|srt)$', r'REPL.\1', name,
flags=re.IGNORECASE)`: on a match, the suffix is replaced by `repl`
followed by `.` and the extension in its original case (`\1`); otherwise
the name is unchanged. -/
def tagSub (tag repl : List Char) (s : List Char) : List Char :=
  if tagMatches tag s then
    s.take (s.length - (tag.length + 5)) ++ repl ++ ('.' :: s.drop (s.length - 3))
  else s

/-- Models the per-name processing of rename_plan.py lines 87-94: the
four substitutions applied in source order (`.tc`, `.sc`, `.jptc`,
`.jpsc`). -/
def process_new_name (s : List Char) : List Char :=
  tagSub "jpsc".data ".chs".data
    (tagSub "jptc".data ".cht".data
      (tagSub "sc".data ".chs".data
        (tagSub "tc".data ".cht".data s)))

/-- Models `normalize_rename_response` of rename_plan.py (lines 71-96)
from the parsed JSON on: like the rename.py variant but each proposed
name runs through the subtitle-suffix rewrites before zipping. -/
def normalize_rename_response (paths : List String) (rj : ResponseJson) :
    Option (List (String × String)) :=
  match rj.result with
  | none => none
  | some result =>
    if result.length ≠ paths.length then none
    else
      some (dictOfList (List.zip paths
        (result.map (fun new_name => ⟨process_new_name new_name.data⟩))))

end RenamePlan

/-! ## Plan execution (rename.py `execute_rename_plan`, lines 216-226)

The filesystem state is the set (as a list) of existing directory paths
and existing file paths, all absolute and normalized.  `os.rename` here
fails when the source file does not exist (one of the `OSError` cases);
the Python function has no exception handling, so an `OSError` raised on
one entry propagates and the remaining entries are never reached — the
model returns the failing pair and stops.  Renaming a directory and
failure modes of `os.makedirs` are outside the model; no claim needs
them. -/

/-- Existing directories and files. -/
structure FsState where
  dirs : List String
  files : List String
deriving DecidableEq

/-- Models `os.path.abspath` for inputs that are already normalized (no
`.`/`..` segments, no doubled separators): an absolute path is returned
unchanged, a relative one is joined to the working directory. -/
def abspath (cwd p : String) : String :=
  if isAbs p then p else cwd ++ "/" ++ p

/-- Models `os.path.exists`: true for a directory or a file. -/
def path_exists (st : FsState) (p : String) : Bool :=
  st.dirs.contains p || st.files.contains p

/-- The chain `d`, `dirname d`, `dirname (dirname d)`, ... ending when
the parent no longer changes (filesystem root) or is empty (relative
top); fuelled by the path length, which bounds the chain. -/
def parentChainAux : Nat → String → List String
  | 0, _ => []
  | fuel + 1, p =>
    p :: (let h := dirname p; if h = p ∨ h = "" then [] else parentChainAux fuel h)

/-- Models `os.makedirs(d)` under the caller's `not os.path.exists(d)`
guard: `d` and every missing ancestor come to exist.  Existence is list
membership, so re-listing an already existing ancestor is harmless. -/
def makedirs (st : FsState) (d : String) : FsState :=
  { st with dirs := parentChainAux (d.data.length + 1) d ++ st.dirs }

/-- Models `execute_rename_plan` (rename.py lines 216-226).  For each
entry in plan order: make both paths absolute, create the target's
parent directory if it does not exist, then rename.  Returns the final
state, the successfully renamed `(old, new)` pairs in order (the pairs
the function reports), and the entry whose rename raised, if any; once
an entry fails the remaining entries are not processed, because the
exception propagates out of the loop. -/
def execute_rename_plan (cwd : String) :
    List (String × String) → FsState → FsState × List (String × String) × Option (String × String)
  | [], st => (st, [], none)
  | (original, newP) :: rest, st =>
    let absO := abspath cwd original
    let absN := abspath cwd newP
    let newDir := dirname absN
    let st1 := if path_exists st newDir then st else makedirs st newDir
    if st1.files.contains absO then
      let st2 : FsState := { st1 with files := absN :: st1.files.erase absO }
      let r := execute_rename_plan cwd rest st2
      (r.1, (absO, absN) :: r.2.1, r.2.2)
    else
      (st1, [], some (absO, absN))

/-- Modelled from the spec: the anchored pattern `Season \d+` that the
specified executor is supposed to test a directory name against before
dropping a `.ignore` sentinel there.  No such check (and no sentinel
creation at all) exists in the source; the definition is needed only to
state that claim. -/
def matchesSeasonDir (name : String) : Bool :=
  ("Season ".data).isPrefixOf name.data
  && (let rest := name.data.drop ("Season ".data).length
      rest ≠ [] && rest.all Char.isDigit)

end BtRename

namespace BtRename

/-! ## Helper lemmas -/

theorem strAppend_assoc (a b c : String) : (a ++ b) ++ c = a ++ (b ++ c) := by
  cases a; cases b; cases c
  show String.mk _ = String.mk _
  simp [String.append, List.append_assoc]

theorem strAppend_data (a b : String) : (a ++ b).data = a.data ++ b.data := rfl

theorem mem_sortPairs {pe : String × Fs} {l : List (String × Fs)} :
    pe ∈ sortPairs l ↔ pe ∈ l :=
  (List.perm_insertionSort pairLe l).mem_iff

theorem mem_sorted_listing {dirPath : String} {entries : List Fs} {e : Fs}
    (he : e ∈ entries) (hh : isHiddenEntry e.name = false) :
    (dirPath ++ "/" ++ e.name) ∈ sorted_listing dirPath entries := by
  have hmem : (dirPath ++ "/" ++ e.name, e) ∈ visiblePairs dirPath entries := by
    unfold visiblePairs
    exact List.mem_map_of_mem _ (List.mem_filter.mpr ⟨he, by simp [hh]⟩)
  exact List.mem_map_of_mem Prod.fst (mem_sortPairs.mpr hmem)

theorem has_video_of_mem {dirPath : String} {entries : List Fs} {e : Fs}
    (he : e ∈ entries) (hh : isHiddenEntry e.name = false)
    (hv : path_is_video (dirPath ++ "/" ++ e.name) = true) :
    has_video_files (sorted_listing dirPath entries) = true := by
  unfold has_video_files
  exact List.any_eq_true.mpr ⟨_, mem_sorted_listing he hh, hv⟩

theorem fetch_eq_listing_of_video {dirPath : String} {entries : List Fs}
    (h : has_video_files (sorted_listing dirPath entries) = true) :
    ∀ k, fetch_paths_recursively k dirPath entries = sorted_listing dirPath entries := by
  intro k
  unfold fetch_paths_recursively
  simp only []
  rw [show sorted_listing dirPath entries
        = List.map Prod.fst (sortPairs (visiblePairs dirPath entries)) from rfl] at h ⊢
  rw [if_pos h]

theorem shape_of_mem_listing {p : String} {es : List Fs} {x : String}
    (hx : x ∈ List.map Prod.fst (sortPairs (visiblePairs p es))) :
    ∃ s : String, x = p ++ "/" ++ s := by
  rcases List.mem_map.mp hx with ⟨pe, hpe, rfl⟩
  have hvp : pe ∈ visiblePairs p es := mem_sortPairs.mp hpe
  unfold visiblePairs at hvp
  rcases List.mem_map.mp hvp with ⟨e, _, rfl⟩
  exact ⟨e.name, rfl⟩

theorem fetch_shape : ∀ (k : Nat) (p : String) (es : List Fs) (x : String),
    x ∈ fetch_paths_recursively k p es → ∃ s : String, x = p ++ "/" ++ s := by
  intro k
  induction k using Nat.strong_induction_on with
  | _ k ih =>
    intro p es x hx
    unfold fetch_paths_recursively at hx
    simp only [] at hx
    by_cases hv : has_video_files (List.map Prod.fst (sortPairs (visiblePairs p es))) = true
    · rw [if_pos hv] at hx
      exact shape_of_mem_listing hx
    · rw [if_neg hv] at hx
      match k, hx with
      | 0, hx => exact shape_of_mem_listing hx
      | 1, hx => exact shape_of_mem_listing hx
      | Nat.succ (Nat.succ n), hx =>
        rcases List.mem_flatten.mp hx with ⟨l, hl, hxl⟩
        rcases List.mem_map.mp hl with ⟨pe, hpe, rfl⟩
        match hsub : pe.2 with
        | Fs.file _ => rw [hsub] at hxl; cases hxl
        | Fs.dir dnm sub =>
          rw [hsub] at hxl
          rcases ih (Nat.succ n) (by omega) pe.1 sub x hxl with ⟨s, rfl⟩
          have hvp : pe ∈ visiblePairs p es := mem_sortPairs.mp hpe
          unfold visiblePairs at hvp
          rcases List.mem_map.mp hvp with ⟨e, _, rfl⟩
          refine ⟨e.name ++ ("/" ++ s), ?_⟩
          rw [strAppend_assoc (p ++ "/" ++ e.name) "/" s]
          rw [strAppend_assoc (p ++ "/") e.name ("/" ++ s)]

/-- C6: for every directory whose immediate non-hidden entry set contains
at least one entry classified as video (by the extension test the code
applies to the entry's absolute path), discovery at any depth returns
exactly that directory's lexicographically sorted non-hidden entry list
(directories and files alike: the result equals the sorted listing and
is a sorted permutation of the non-hidden entry paths) and does not
descend into any subdirectory (the result does not depend on any
subdirectory's contents or on the depth bound). -/
theorem C6_discover_stops_at_video
    (maxDepth : Nat) (dirPath : String) (entries : List Fs)
    (h : ∃ e, e ∈ entries ∧ isHiddenEntry e.name = false ∧
      path_is_video (dirPath ++ "/" ++ e.name) = true) :
    fetch_paths_recursively maxDepth dirPath entries = sorted_listing dirPath entries
    ∧ List.Sorted strLe (sorted_listing dirPath entries)
    ∧ (sorted_listing dirPath entries).Perm
        ((visiblePairs dirPath entries).map Prod.fst) := by
  obtain ⟨e, he, hh, hv⟩ := h
  refine ⟨fetch_eq_listing_of_video (has_video_of_mem he hh hv) maxDepth, ?_, ?_⟩
  · have hs := List.sorted_insertionSort pairLe (visiblePairs dirPath entries)
    exact List.pairwise_map.mpr hs
  · exact (List.perm_insertionSort pairLe _).map Prod.fst

theorem C6_witness :
    fetch_paths_recursively 2 "/r"
        [Fs.file "S01E01.mkv", Fs.dir "SPs" [Fs.file "sp1.txt"]]
      = ["/r/S01E01.mkv", "/r/SPs"] :=
  (C6_discover_stops_at_video 2 "/r"
      [Fs.file "S01E01.mkv", Fs.dir "SPs" [Fs.file "sp1.txt"]]
      ⟨Fs.file "S01E01.mkv", List.mem_cons_self _ _, by decide, by decide⟩).1.trans
    (by decide)

/-- C10: the video gate of discovery classifies entries purely from the
path string and never checks that the entry is a regular file: a
subdirectory whose name ends in a video extension makes discovery stop
at that level and return the full sorted non-hidden entry list, exactly
as a video file would. -/
theorem C10_video_gate_ignores_entry_kind
    (maxDepth : Nat) (dirPath : String) (entries : List Fs)
    (d : String) (sub : List Fs)
    (hmem : Fs.dir d sub ∈ entries)
    (hh : isHiddenEntry d = false)
    (hv : path_is_video (dirPath ++ "/" ++ d) = true) :
    fetch_paths_recursively maxDepth dirPath entries = sorted_listing dirPath entries :=
  fetch_eq_listing_of_video (has_video_of_mem hmem hh hv) maxDepth

theorem C10_witness :
    fetch_paths_recursively 2 "/r" [Fs.dir "Extras.mkv" [Fs.file "x.txt"]]
      = ["/r/Extras.mkv"] :=
  (C10_video_gate_ignores_entry_kind 2 "/r" [Fs.dir "Extras.mkv" [Fs.file "x.txt"]]
      "Extras.mkv" [Fs.file "x.txt"] (List.mem_cons_self _ _) (by decide) (by decide)).trans
    (by decide)

/-- C7: for a directory with no video file among its immediate entries
and a depth bound of at least 2, discovery recurses into every
subdirectory among the sorted non-hidden entries with the bound reduced
by one and returns the concatenation of the recursive results in entry
order, dropping plain files at this level; a plain file of this
non-terminal level (any file name not containing a separator) never
appears in the result.  Since the statement quantifies over every
directory and depth, the exclusion applies at every non-terminal level
of the recursion. -/
theorem C7_discover_recurses_without_video
    (maxDepth : Nat) (dirPath : String) (entries : List Fs)
    (hd : 2 ≤ maxDepth)
    (hv : has_video_files (sorted_listing dirPath entries) = false) :
    fetch_paths_recursively maxDepth dirPath entries
      = ((sortPairs (visiblePairs dirPath entries)).map (fun pe =>
          match pe.2 with
          | Fs.file _ => []
          | Fs.dir _ sub => fetch_paths_recursively (maxDepth - 1) pe.1 sub)).flatten
    ∧ (∀ nm : String, Fs.file nm ∈ entries → '/' ∉ nm.data →
        (dirPath ++ "/" ++ nm) ∉ fetch_paths_recursively maxDepth dirPath entries) := by
  obtain ⟨n, rfl⟩ : ∃ n, maxDepth = n + 2 := ⟨maxDepth - 2, by omega⟩
  rw [show sorted_listing dirPath entries
        = List.map Prod.fst (sortPairs (visiblePairs dirPath entries)) from rfl] at hv
  have hmain : fetch_paths_recursively (n + 2) dirPath entries
      = ((sortPairs (visiblePairs dirPath entries)).map (fun pe =>
          match pe.2 with
          | Fs.file _ => []
          | Fs.dir _ sub => fetch_paths_recursively (n + 2 - 1) pe.1 sub)).flatten := by
    conv_lhs => rw [fetch_paths_recursively.eq_def]
    simp only []
    rw [if_neg (by simp [hv])]
    rfl
  refine ⟨hmain, ?_⟩
  intro nm hmem hslash hin
  rw [hmain] at hin
  rcases List.mem_flatten.mp hin with ⟨l, hl, hxl⟩
  rcases List.mem_map.mp hl with ⟨pe, hpe, rfl⟩
  match hsub : pe.2 with
  | Fs.file _ => rw [hsub] at hxl; cases hxl
  | Fs.dir dnm sub =>
    rw [hsub] at hxl
    rcases fetch_shape (n + 2 - 1) pe.1 sub _ hxl with ⟨s, heq⟩
    have hvp : pe ∈ visiblePairs dirPath entries := mem_sortPairs.mp hpe
    unfold visiblePairs at hvp
    rcases List.mem_map.mp hvp with ⟨e, _, rfl⟩
    have hdata : nm.data = e.name.data ++ ('/' :: s.data) := by
      have h0 := congrArg String.data heq
      simp only [strAppend_data, show "/".data = ['/'] from rfl, List.cons_append,
        List.nil_append, List.append_assoc, List.append_cancel_left_eq,
        List.cons.injEq, true_and] at h0
      exact h0
    exact hslash (hdata ▸ List.mem_append_right _ (List.mem_cons_self _ _))

theorem C7_witness :
    ("/r/readme.txt" : String)
      ∉ fetch_paths_recursively 2 "/r" [Fs.file "readme.txt", Fs.dir "Sub" [Fs.file "ep.mkv"]] :=
  (C7_discover_recurses_without_video 2 "/r"
      [Fs.file "readme.txt", Fs.dir "Sub" [Fs.file "ep.mkv"]]
      (by decide) (by decide)).2 "readme.txt" (List.mem_cons_self _ _) (by decide)

end BtRename

namespace BtRename

/-! ## Executor lemmas -/

theorem exec_dirs_mono (cwd : String) :
    ∀ (plan : List (String × String)) (st : FsState),
      st.dirs ⊆ (execute_rename_plan cwd plan st).1.dirs := by
  intro plan
  induction plan with
  | nil => intro st d hd; exact hd
  | cons pr rest ih =>
    intro st d hd
    obtain ⟨o, nP⟩ := pr
    simp only [execute_rename_plan]
    split
    · split
      · exact ih _ hd
      · exact hd
    · split
      · exact ih _ (List.mem_append_right _ hd)
      · exact List.mem_append_right _ hd

theorem exec_files_sub (cwd : String) :
    ∀ (plan : List (String × String)) (st : FsState),
      ∀ f ∈ (execute_rename_plan cwd plan st).1.files,
        f ∈ st.files ∨ ∃ pr, pr ∈ plan ∧ f = abspath cwd pr.2 := by
  intro plan
  induction plan with
  | nil => intro st f hf; exact Or.inl hf
  | cons pr rest ih =>
    intro st f hf
    obtain ⟨o, nP⟩ := pr
    simp only [execute_rename_plan] at hf
    split at hf
    · split at hf
      · rcases ih _ f hf with hin | ⟨pr, hpr, he⟩
        · rcases List.mem_cons.mp hin with rfl | hin2
          · exact Or.inr ⟨(o, nP), List.mem_cons_self _ _, rfl⟩
          · exact Or.inl (List.mem_of_mem_erase hin2)
        · exact Or.inr ⟨pr, List.mem_cons_of_mem _ hpr, he⟩
      · exact Or.inl hf
    · split at hf
      · rcases ih _ f hf with hin | ⟨pr, hpr, he⟩
        · rcases List.mem_cons.mp hin with rfl | hin2
          · exact Or.inr ⟨(o, nP), List.mem_cons_self _ _, rfl⟩
          · exact Or.inl (List.mem_of_mem_erase hin2)
        · exact Or.inr ⟨pr, List.mem_cons_of_mem _ hpr, he⟩
      · exact Or.inl hf

/-- C1 (amended): for every plan entry whose target's parent directory
does not exist, the executor creates that directory and all missing
ancestors (the whole parent chain exists in the final state), and then
performs the rename; it never creates a `.ignore` sentinel file — every
file of the final state is either an original file or the absolute form
of some plan target, so no sentinel (or any other extra file) appears.
The first conjunct is stated for the entry at the head of the plan;
because it holds for every state and every remaining plan, it applies at
each step of the execution. -/
theorem C1_execute_creates_parent_dirs_without_sentinel
    (cwd : String) (plan : List (String × String)) (st : FsState) :
    (∀ o n rest, plan = (o, n) :: rest →
      path_exists st (dirname (abspath cwd n)) = false →
      ∀ q ∈ parentChainAux ((dirname (abspath cwd n)).data.length + 1)
          (dirname (abspath cwd n)),
        q ∈ (execute_rename_plan cwd plan st).1.dirs)
    ∧ (∀ f ∈ (execute_rename_plan cwd plan st).1.files,
        f ∈ st.files ∨ ∃ pr, pr ∈ plan ∧ f = abspath cwd pr.2) := by
  refine ⟨?_, exec_files_sub cwd plan st⟩
  intro o n rest hplan hne q hq
  subst hplan
  simp only [execute_rename_plan]
  have hst1 : (if path_exists st (dirname (abspath cwd n)) then st
      else makedirs st (dirname (abspath cwd n))) = makedirs st (dirname (abspath cwd n)) :=
    if_neg (by simp [hne])
  rw [hst1]
  have hq1 : q ∈ (makedirs st (dirname (abspath cwd n))).dirs :=
    List.mem_append_left _ hq
  split
  · exact exec_dirs_mono cwd rest _ hq1
  · exact hq1

theorem C1_amended_witness :
    ("/out/Specials" : String)
      ∈ (execute_rename_plan "/cwd" [("/src/a.mkv", "/out/Specials/a.mkv")]
          ⟨["/", "/src"], ["/src/a.mkv"]⟩).1.dirs :=
  (C1_execute_creates_parent_dirs_without_sentinel "/cwd"
      [("/src/a.mkv", "/out/Specials/a.mkv")] ⟨["/", "/src"], ["/src/a.mkv"]⟩).1
    "/src/a.mkv" "/out/Specials/a.mkv" [] rfl (by decide) "/out/Specials" (by decide)

/-- C1 counterexample: a plan entry whose target parent `/out/Specials`
does not exist and does not match the anchored pattern `Season <digits>`
is executed; the executor creates `/out/Specials` and performs the
rename, but the final state's files are exactly the renamed target — in
particular no `.ignore` sentinel file is created inside the new
directory, contradicting the claim. -/
theorem C1_counterexample :
    path_exists ⟨["/", "/src"], ["/src/a.mkv"]⟩ "/out/Specials" = false
    ∧ matchesSeasonDir "Specials" = false
    ∧ ("/out/Specials" : String)
        ∈ (execute_rename_plan "/cwd" [("/src/a.mkv", "/out/Specials/a.mkv")]
            ⟨["/", "/src"], ["/src/a.mkv"]⟩).1.dirs
    ∧ (execute_rename_plan "/cwd" [("/src/a.mkv", "/out/Specials/a.mkv")]
        ⟨["/", "/src"], ["/src/a.mkv"]⟩).1.files = ["/out/Specials/a.mkv"]
    ∧ ("/out/Specials/.ignore" : String)
        ∉ (execute_rename_plan "/cwd" [("/src/a.mkv", "/out/Specials/a.mkv")]
            ⟨["/", "/src"], ["/src/a.mkv"]⟩).1.files := by
  decide

/-- C2 (amended): the executor applies entries sequentially in plan
iteration order, but failures are not isolated per entry: when no entry
fails, the reported renames are exactly the plan's entries (made
absolute) in order; when some entry fails, the exception propagates, so
the reported renames are a proper prefix of the plan and the remaining
entries are never attempted. -/
theorem C2_execute_sequential_halts_on_failure
    (cwd : String) (plan : List (String × String)) (st : FsState) :
    ((execute_rename_plan cwd plan st).2.2 = none →
      (execute_rename_plan cwd plan st).2.1
        = plan.map (fun pr => (abspath cwd pr.1, abspath cwd pr.2)))
    ∧ ((execute_rename_plan cwd plan st).2.2 ≠ none →
      ∃ k, k < plan.length ∧
        (execute_rename_plan cwd plan st).2.1
          = (plan.take k).map (fun pr => (abspath cwd pr.1, abspath cwd pr.2))) := by
  induction plan generalizing st with
  | nil =>
    exact ⟨fun _ => rfl, fun h => absurd rfl h⟩
  | cons pr rest ih =>
    obtain ⟨o, nP⟩ := pr
    simp only [execute_rename_plan]
    generalize (if path_exists st (dirname (abspath cwd nP)) then st
      else makedirs st (dirname (abspath cwd nP))) = st1
    by_cases hcon : st1.files.contains (abspath cwd o) = true
    · rw [if_pos hcon]
      dsimp only
      constructor
      · intro hnone
        rw [(ih _).1 hnone]
        rfl
      · intro hsome
        rcases (ih _).2 hsome with ⟨k, hk, hlog⟩
        exact ⟨k + 1, by simpa using hk, by simp [List.take_succ_cons, hlog]⟩
    · rw [if_neg hcon]
      dsimp only
      exact ⟨fun h => absurd h (by simp), fun _ => ⟨0, by simp, by simp⟩⟩

theorem C2_amended_witness :
    (execute_rename_plan "/cwd" [("/b.mkv", "/c.mkv")] ⟨["/"], ["/b.mkv"]⟩).2.1
      = [("/b.mkv", "/c.mkv")] :=
  ((C2_execute_sequential_halts_on_failure "/cwd" [("/b.mkv", "/c.mkv")]
      ⟨["/"], ["/b.mkv"]⟩).1 (by decide)).trans (by decide)

/-- C2 counterexample: a two-entry plan whose first entry fails (its
source does not exist) and whose second entry would succeed; the
executor stops at the failure: it reports no successful rename, the
second entry's source is still in place and its target was never
created, so the remaining entry was skipped because a prior entry
failed, contradicting the claim. -/
theorem C2_counterexample :
    (execute_rename_plan "/cwd" [("/missing.mkv", "/x.mkv"), ("/b.mkv", "/c.mkv")]
        ⟨["/"], ["/b.mkv"]⟩)
      = (⟨["/"], ["/b.mkv"]⟩, [], some ("/missing.mkv", "/x.mkv"))
    ∧ ("/c.mkv" : String)
        ∉ (execute_rename_plan "/cwd" [("/missing.mkv", "/x.mkv"), ("/b.mkv", "/c.mkv")]
            ⟨["/"], ["/b.mkv"]⟩).1.files
    ∧ ("/b.mkv" : String)
        ∈ (execute_rename_plan "/cwd" [("/missing.mkv", "/x.mkv"), ("/b.mkv", "/c.mkv")]
            ⟨["/"], ["/b.mkv"]⟩).1.files := by
  decide

end BtRename

namespace BtRename

/-! ## Dict lemmas -/

theorem dictInsert_of_not_mem {m : List (String × String)} {k v : String}
    (h : k ∉ m.map Prod.fst) : dictInsert m k v = m ++ [(k, v)] := by
  unfold dictInsert
  rw [if_neg]
  intro hc
  exact h (List.elem_iff.mp hc)

theorem dictFold_of_nodup :
    ∀ (l acc : List (String × String)),
      (acc.map Prod.fst ++ l.map Prod.fst).Nodup →
      l.foldl (fun m p => dictInsert m p.1 p.2) acc = acc ++ l := by
  intro l
  induction l with
  | nil => intro acc _; simp
  | cons p ps ih =>
    intro acc h
    have hk : p.1 ∉ acc.map Prod.fst := by
      rcases List.nodup_append.mp h with ⟨_, _, hdis⟩
      intro hmem
      exact hdis hmem (by simp)
    simp only [List.foldl_cons]
    rw [dictInsert_of_not_mem hk]
    rw [ih (acc ++ [p]) (by simpa [List.append_assoc] using h)]
    simp

theorem dictOfList_of_nodup {l : List (String × String)}
    (h : (l.map Prod.fst).Nodup) : dictOfList l = l := by
  unfold dictOfList
  simpa using dictFold_of_nodup l [] (by simpa using h)

/-- C3: each proposed name in the parsed `result` list goes through the
fixed case-insensitive suffix rewrites `.tc` → `.cht`, `.sc` → `.chs`,
`.jptc` → `.cht`, `.jpsc` → `.chs`, each matching only immediately
before a final `.ass`/`.srt` extension, with the extension's original
case preserved; a name matching none of the four patterns is unchanged;
and the normalizer maps exactly this processing over the `result` list
before zipping it with the sources. -/
theorem C3_subtitle_suffix_rewrites :
    RenamePlan.process_new_name "Ep01.tc.srt".data = "Ep01.cht.srt".data
    ∧ RenamePlan.process_new_name "Ep01.SC.ASS".data = "Ep01.chs.ASS".data
    ∧ (∀ s : List Char,
        RenamePlan.tagMatches "tc".data s = false →
        RenamePlan.tagMatches "sc".data s = false →
        RenamePlan.tagMatches "jptc".data s = false →
        RenamePlan.tagMatches "jpsc".data s = false →
        RenamePlan.process_new_name s = s)
    ∧ (∀ (paths result : List String), result.length = paths.length →
        RenamePlan.normalize_rename_response paths ⟨some result⟩
          = some (dictOfList (List.zip paths
              (result.map (fun r => ⟨RenamePlan.process_new_name r.data⟩))))) := by
  refine ⟨by decide, by decide, ?_, ?_⟩
  · intro s h1 h2 h3 h4
    simp [RenamePlan.process_new_name, RenamePlan.tagSub, h1, h2, h3, h4]
  · intro paths result h
    unfold RenamePlan.normalize_rename_response
    dsimp only
    rw [if_neg (by omega)]

theorem C3_witness :
    RenamePlan.process_new_name "Movie Title.mkv".data = "Movie Title.mkv".data :=
  C3_subtitle_suffix_rewrites.2.2.1 "Movie Title.mkv".data
    (by decide) (by decide) (by decide) (by decide)

/-- C4 counterexample: `common_top_directory` on
`["/a/b/c.mkv", "/a/b/d.mkv"]` does not return `"a"`: splitting the
common parent `"/a/b"` on `/` yields `["", "a", "b"]`, whose first
element is the empty string. -/
theorem C4_counterexample :
    common_top_directory ["/a/b/c.mkv", "/a/b/d.mkv"] ≠ "a" := by
  decide

/-- C4 (amended): on the absolute paths `["/a/b/c.mkv", "/a/b/d.mkv"]`
the function returns `""` (the first piece of splitting the absolute
common parent `"/a/b"` on `/` is empty); on the corresponding relative
paths it returns `"a"`; on the empty list it returns `""`. -/
theorem C4_common_top_directory_values :
    common_top_directory ["/a/b/c.mkv", "/a/b/d.mkv"] = ""
    ∧ common_top_directory [] = ""
    ∧ common_top_directory ["a/b/c.mkv", "a/b/d.mkv"] = "a" := by
  decide

/-- C5 counterexample: with a duplicated source path the normalizer
still succeeds, but the dict comprehension collapses the duplicate key,
so the mapping has fewer entries than the sources, contradicting
`len(plan) == len(sources)` for every source list. -/
theorem C5_counterexample :
    Rename.normalize_rename_response ["a", "a"] ⟨some ["x", "y"]⟩ = some [("a", "y")]
    ∧ ([("a", "y")] : List (String × String)).length ≠ (["a", "a"] : List String).length := by
  decide

/-- C5 (amended): for every source path list with pairwise-distinct
paths and every parsed `result` list of the same length, the normalizer
succeeds with the zipped mapping, which has exactly one entry per
source path (`len(plan) == len(sources)`). -/
theorem C5_normalize_preserves_length
    (paths result : List String)
    (hnd : paths.Nodup) (hlen : result.length = paths.length) :
    Rename.normalize_rename_response paths ⟨some result⟩ = some (List.zip paths result)
    ∧ (List.zip paths result).length = paths.length := by
  constructor
  · unfold Rename.normalize_rename_response
    dsimp only
    rw [if_neg (by omega)]
    rw [dictOfList_of_nodup (by rw [List.map_fst_zip paths result (by omega)]; exact hnd)]
  · simp [List.length_zip, hlen]

theorem C5_witness :
    Rename.normalize_rename_response ["/r/a.mkv", "/r/b.mkv"] ⟨some ["x.mkv", "y.mkv"]⟩
      = some [("/r/a.mkv", "x.mkv"), ("/r/b.mkv", "y.mkv")] :=
  ((C5_normalize_preserves_length ["/r/a.mkv", "/r/b.mkv"] ["x.mkv", "y.mkv"]
      (by decide) (by decide)).1).trans (by decide)

/-- C8: when the parsed `result` list's length differs from the number
of sources, both normalizer variants return the error outcome (`None`,
the length-mismatch report) and no mapping at all. -/
theorem C8_normalize_length_mismatch
    (paths result : List String) (h : result.length ≠ paths.length) :
    Rename.normalize_rename_response paths ⟨some result⟩ = none
    ∧ RenamePlan.normalize_rename_response paths ⟨some result⟩ = none := by
  constructor
  · unfold Rename.normalize_rename_response
    dsimp only
    rw [if_pos h]
  · unfold RenamePlan.normalize_rename_response
    dsimp only
    rw [if_pos h]

theorem C8_witness :
    Rename.normalize_rename_response ["/r/a.mkv"] ⟨some []⟩ = none
    ∧ RenamePlan.normalize_rename_response ["/r/a.mkv"] ⟨some []⟩ = none :=
  C8_normalize_length_mismatch ["/r/a.mkv"] [] (by decide)

/-- C9: `extract_anime_name` removes every non-greedy `[...]` and
`(...)` group (also when several occur), collapses whitespace runs to a
single space and trims; in particular `"[Group] Show Name (2020)"`
becomes `"Show Name"`. -/
theorem C9_extract_title :
    extract_anime_name "[Group] Show Name (2020)" = "Show Name"
    ∧ extract_anime_name "[A][B] X (1) (2)" = "X"
    ∧ extract_anime_name "  Plain   Title  " = "Plain Title" := by
  decide

end BtRename
